import Mathlib

/-!
Verification of the USCIS QA study-aid core: the question store
(`logic/db.py`), the adaptive weighted-random selector
(`logic/question_selector.py`), and spreadsheet ingestion
(`data/qa_loader.py`), modelled as pure functions over an explicit
list-of-rows database state.  Python floats are modelled as rationals;
the single uniform draw made by `random.choices` is an explicit
parameter `u` ranging over `[0,1)`.
-/

/-- A row of the `questions` table: the five persisted fields of the schema
in `init_database`, with both counters defaulting to 0 on insertion. -/
structure Question where
  id : Nat
  question_text : String
  answer_text : String
  category : Option String
  times_seen : Nat
  times_failed : Nat
deriving DecidableEq

/-- Derived fail rate as computed in `get_all_questions`:
`times_failed / times_seen` when `times_seen > 0`, else `0.0`. -/
def failRate (q : Question) : ℚ :=
  if q.times_seen > 0 then (q.times_failed : ℚ) / (q.times_seen : ℚ) else 0

/-- Weight of a question as computed inside `get_next_question`:
start at `1.0`, multiply by `1.5` when `times_seen < 3`, then add
`fail_rate * 3` (the row's `fail_rate` annotation, guarded again by
`times_seen > 0`). -/
def weight (q : Question) : ℚ :=
  let w : ℚ := 1
  let w := if q.times_seen < 3 then w * 1.5 else w
  let fail_rate := if q.times_seen > 0 then failRate q else 0
  w + fail_rate * 3

/-- Cumulative-distribution inversion, the sampling core of
`random.choices(questions, weights=weights, k=1)`: given the weight list
and a sample `x` (the library draws `x = random() * total`), return the
first index whose cumulative weight exceeds `x`. -/
def selectIdx : List ℚ → ℚ → Nat
  | [], _ => 0
  | w :: ws, x => if x < w then 0 else selectIdx ws (x - w) + 1

/-- The selector `get_next_question`, with the database read and the random
draw made explicit: `questions` is the result of `get_all_questions` and
`u` is the uniform sample from `[0,1)` consumed by the weighted draw.
Returns `none` on an empty question set. -/
def get_next_question (questions : List Question) (u : ℚ) : Option Question :=
  match questions with
  | [] => none
  | q :: qs =>
      let weights := (q :: qs).map weight
      some ((q :: qs).getD (selectIdx weights (u * weights.sum)) q)

/-- The store operation `update_question_stats`: the SQL `UPDATE ... WHERE
id = ?` increments `times_seen` on every row whose id matches, and also
`times_failed` when the answer was not passed; other rows are untouched. -/
def update_question_stats (db : List Question) (question_id : Nat)
    (passed : Bool) : List Question :=
  db.map fun q =>
    if q.id = question_id then
      if passed then { q with times_seen := q.times_seen + 1 }
      else { q with times_seen := q.times_seen + 1,
                    times_failed := q.times_failed + 1 }
    else q

/-- The store operation `reset_all_statistics`: `UPDATE questions SET
times_seen = 0, times_failed = 0` over every row. -/
def reset_all_statistics (db : List Question) : List Question :=
  db.map fun q => { q with times_seen := 0, times_failed := 0 }

/-- The descending comparison realised by
`questions.sort(key=lambda x: (x.fail_rate, x.times_failed), reverse=True)`:
row `a` may precede row `b` exactly when the key pair of `a` is
lexicographically at least that of `b`. -/
def missedGe (a b : Question) : Bool :=
  decide (failRate b < failRate a
    ∨ (failRate a = failRate b ∧ b.times_failed ≤ a.times_failed))

/-- The store query `get_most_missed_questions`: stable-sort all questions
by `(fail_rate, times_failed)` descending and keep the first `limit`. -/
def get_most_missed_questions (db : List Question) (limit : Nat) :
    List Question :=
  (db.mergeSort missedGe).take limit

/-- A store mutation issued by the presentation layer: one recorded
pass/fail attempt, or a full statistics reset. -/
inductive StoreOp where
  | recordAttempt (id : Nat) (passed : Bool)
  | resetAll

/-- Interpretation of one store mutation on the table. -/
def applyOp (db : List Question) : StoreOp → List Question
  | .recordAttempt id p => update_question_stats db id p
  | .resetAll => reset_all_statistics db

/-- Run a sequence of store mutations left to right. -/
def runOps (db : List Question) (ops : List StoreOp) : List Question :=
  ops.foldl applyOp db

/-- One normalized row produced by `normalize_excel_data`: the
`(question_text, answer_text, category)` tuple inserted or upserted by
`load_excel_to_db`. -/
structure IngestTuple where
  question_text : String
  answer_text : String
  category : Option String
deriving DecidableEq

/-- Database state threaded through ingestion: the rows plus the next
auto-assigned integer primary key (SQLite hands out fresh increasing ids
to inserted rows). -/
abbrev DbState := List Question × Nat

/-- A freshly inserted row: `INSERT INTO questions (question_text,
answer_text, category) VALUES (?, ?, ?)`, counters at their schema
default 0. -/
def newRow (id : Nat) (t : IngestTuple) : Question :=
  { id := id, question_text := t.question_text,
    answer_text := t.answer_text, category := t.category,
    times_seen := 0, times_failed := 0 }

/-- One step of the update-or-insert branch of `load_excel_to_db`:
`SELECT id FROM questions WHERE question_text = ?` fetches the first row
whose text matches; when found, `UPDATE ... SET answer_text = ?,
category = ? WHERE id = ?` rewrites that id's row, otherwise a fresh row
is inserted. -/
def upsertStep (st : DbState) (t : IngestTuple) : DbState :=
  match st.1.find? (fun q => q.question_text == t.question_text) with
  | some ex =>
      (st.1.map (fun q =>
        if q.id = ex.id then
          { q with answer_text := t.answer_text, category := t.category }
        else q), st.2)
  | none => (st.1 ++ [newRow st.2 t], st.2 + 1)

/-- The bulk branch of `load_excel_to_db`, taken when the table is empty:
insert every tuple in order, with no matching on `question_text`. -/
def bulkInsert (st : DbState) (tuples : List IngestTuple) : DbState :=
  tuples.foldl (fun st t => (st.1 ++ [newRow st.2 t], st.2 + 1)) st

/-- The source file as seen by `load_excel_to_db` after the pandas reads
and `normalize_excel_data`: either unreadable (any read raised), or the
list of normalized tuples extracted from its sheets. -/
inductive ExcelSource where
  | unreadable : ExcelSource
  | readable : List IngestTuple → ExcelSource

/-- `load_excel_to_db`: raise on an unreadable file or when zero valid
rows were extracted, leaving the table untouched; otherwise bulk-insert
into an empty table, or update-by-matching-text into a non-empty one, and
return the number of tuples processed. -/
def load_excel_to_db (st : DbState) (src : ExcelSource) :
    Except String Nat × DbState :=
  match src with
  | .unreadable => (.error "Error reading Excel file", st)
  | .readable tuples =>
      if tuples.isEmpty then
        (.error "No valid questions found in Excel file(s)", st)
      else if st.1.length = 0 then (.ok tuples.length, bulkInsert st tuples)
      else (.ok tuples.length, tuples.foldl upsertStep st)

/-! ## Basic facts about the weight formula -/

/-- The fail rate is a quotient of non-negative numbers (or zero). -/
lemma failRate_nonneg (q : Question) : 0 ≤ failRate q := by
  unfold failRate
  split
  · exact div_nonneg (Nat.cast_nonneg _) (Nat.cast_nonneg _)
  · exact le_refl 0

/-- Every computed weight is at least 1, hence strictly positive. -/
lemma one_le_weight (q : Question) : 1 ≤ weight q := by
  unfold weight
  have h1 : (1 : ℚ) ≤ if q.times_seen < 3 then (1 : ℚ) * 1.5 else 1 := by
    split <;> norm_num
  have h2 : 0 ≤ (if q.times_seen > 0 then failRate q else 0) * 3 := by
    have : (0 : ℚ) ≤ if q.times_seen > 0 then failRate q else 0 := by
      split
      · exact failRate_nonneg q
      · exact le_refl 0
    positivity
  linarith

lemma weight_pos (q : Question) : 0 < weight q :=
  lt_of_lt_of_le one_pos (one_le_weight q)

/-- C1: for every question the computed weight equals
`(1.5 if times_seen < 3 else 1.0) + fail_rate * 3.0` with
`fail_rate = times_failed / times_seen` when `times_seen > 0` and `0`
otherwise; in particular `times_seen = 0` gives weight exactly `1.5`,
`times_seen = 10, times_failed = 10` gives exactly `4.0`, and
`times_seen = 1, times_failed = 0` gives exactly `1.5`. -/
theorem weight_formula (q : Question) :
    weight q
      = (if q.times_seen < 3 then (1.5 : ℚ) else 1)
        + (if q.times_seen > 0 then
            (q.times_failed : ℚ) / (q.times_seen : ℚ) else 0) * 3
    ∧ (q.times_seen = 0 → weight q = 1.5)
    ∧ (q.times_seen = 10 → q.times_failed = 10 → weight q = 4)
    ∧ (q.times_seen = 1 → q.times_failed = 0 → weight q = 1.5) := by
  have hmain : weight q
      = (if q.times_seen < 3 then (1.5 : ℚ) else 1)
        + (if q.times_seen > 0 then
            (q.times_failed : ℚ) / (q.times_seen : ℚ) else 0) * 3 := by
    unfold weight failRate
    split <;> split <;> norm_num
  refine ⟨hmain, ?_, ?_, ?_⟩
  · intro h0
    rw [hmain, h0]
    norm_num
  · intro hs hf
    rw [hmain, hs, hf]
    norm_num
  · intro hs hf
    rw [hmain, hs, hf]
    norm_num

/-- Witness for C1 at a concrete never-seen question. -/
theorem weight_formula_witness :
    weight ⟨1, "q", "a", none, 0, 0⟩ = 1.5 :=
  (weight_formula ⟨1, "q", "a", none, 0, 0⟩).2.1 rfl

/-! ## Recording attempts (C3) and the counter invariant (C4) -/

/-- C3: `update_question_stats` preserves the row count, increments the
matching row's `times_seen` by exactly 1 and its `times_failed` by exactly
1 iff the attempt was not passed, leaves rows with a different id
unchanged, is a no-op when no row matches, and recording a pass then a
fail on a fresh `(0, 0)` question yields counters `(2, 1)` with fail rate
`1/2`. -/
theorem update_question_stats_spec (db : List Question) (qid : Nat)
    (passed : Bool) :
    (update_question_stats db qid passed).length = db.length
    ∧ (∀ (i : Nat) (q : Question), db[i]? = some q →
        (q.id = qid →
          (update_question_stats db qid passed)[i]?
            = some { q with times_seen := q.times_seen + 1,
                            times_failed :=
                              q.times_failed + (if passed then 0 else 1) })
        ∧ (q.id ≠ qid → (update_question_stats db qid passed)[i]? = some q))
    ∧ ((∀ q ∈ db, q.id ≠ qid) → update_question_stats db qid passed = db)
    ∧ (∀ (qt ans : String) (cat : Option String),
        update_question_stats
            (update_question_stats [⟨qid, qt, ans, cat, 0, 0⟩] qid true)
            qid false
          = [⟨qid, qt, ans, cat, 2, 1⟩]
        ∧ failRate ⟨qid, qt, ans, cat, 2, 1⟩ = 1/2) := by
  refine ⟨List.length_map _ _, ?_, ?_, ?_⟩
  · intro i q hq
    constructor
    · intro hid
      rw [update_question_stats, List.getElem?_map, hq]
      cases passed <;> simp [hid]
    · intro hid
      rw [update_question_stats, List.getElem?_map, hq]
      simp [hid]
  · intro hnone
    rw [update_question_stats]
    conv_rhs => rw [show db = db.map id from (List.map_id db).symm]
    exact List.map_congr_left fun q hq => by simp [hnone q hq]
  · intro qt ans cat
    constructor
    · simp [update_question_stats]
    · norm_num [failRate]

/-- Witness for C3: the pass-then-fail scenario at a concrete question. -/
theorem update_question_stats_spec_witness :
    update_question_stats
        (update_question_stats [⟨7, "q", "a", none, 0, 0⟩] 7 true) 7 false
      = [⟨7, "q", "a", none, 2, 1⟩] :=
  ((update_question_stats_spec [⟨7, "q", "a", none, 0, 0⟩] 7 true).2.2.2
    "q" "a" none).1

/-- One store mutation preserves the counter invariant. -/
lemma applyOp_invariant (db : List Question) (op : StoreOp)
    (h : ∀ q ∈ db, q.times_failed ≤ q.times_seen) :
    ∀ q ∈ applyOp db op, q.times_failed ≤ q.times_seen := by
  cases op with
  | recordAttempt id p =>
      intro q hq
      simp only [applyOp, update_question_stats, List.mem_map] at hq
      obtain ⟨r, hr, hrq⟩ := hq
      have hinv := h r hr
      subst hrq
      by_cases hid : r.id = id
      · cases p <;> simp [hid] <;> omega
      · simp [hid]
        exact hinv
  | resetAll =>
      intro q hq
      simp only [applyOp, reset_all_statistics, List.mem_map] at hq
      obtain ⟨r, _, hrq⟩ := hq
      subst hrq
      exact Nat.le_refl 0

/-- C4: starting from any table where every question satisfies
`0 ≤ times_failed ≤ times_seen` (the zero-counter state of fresh rows in
particular), every question still satisfies it after any sequence of
recorded attempts and full resets. -/
theorem counters_invariant (db : List Question) (ops : List StoreOp)
    (h : ∀ q ∈ db, q.times_failed ≤ q.times_seen) :
    ∀ q ∈ runOps db ops,
      0 ≤ q.times_failed ∧ q.times_failed ≤ q.times_seen := by
  rw [runOps]
  induction ops generalizing db with
  | nil => exact fun q hq => ⟨Nat.zero_le _, h q hq⟩
  | cons op ops ih =>
      exact ih (applyOp db op) (applyOp_invariant db op h)

/-- Witness for C4: one fail, one reset, one pass on a fresh question. -/
theorem counters_invariant_witness :
    0 ≤ (Question.mk 1 "q" "a" none 1 0).times_failed
    ∧ (Question.mk 1 "q" "a" none 1 0).times_failed
        ≤ (Question.mk 1 "q" "a" none 1 0).times_seen :=
  counters_invariant [⟨1, "q", "a", none, 0, 0⟩]
    [.recordAttempt 1 false, .resetAll, .recordAttempt 1 true]
    (by
      intro q hq
      rw [List.mem_singleton] at hq
      subst hq
      exact Nat.le_refl 0)
    (Question.mk 1 "q" "a" none 1 0)
    (by
      rw [show runOps [⟨1, "q", "a", none, 0, 0⟩]
            [.recordAttempt 1 false, .resetAll, .recordAttempt 1 true]
          = [⟨1, "q", "a", none, 1, 0⟩] from rfl]
      exact List.mem_singleton_self _)

/-! ## Resetting statistics (C6) -/

/-- C6: after `reset_all_statistics` every row has both counters at 0 and
fail rate 0, the row count is unchanged, and each row keeps its id,
question text, answer text and category. -/
theorem reset_all_statistics_spec (db : List Question) :
    (∀ q ∈ reset_all_statistics db,
      q.times_seen = 0 ∧ q.times_failed = 0 ∧ failRate q = 0)
    ∧ (reset_all_statistics db).length = db.length
    ∧ (∀ (i : Nat) (q : Question), db[i]? = some q →
        (reset_all_statistics db)[i]?
          = some ⟨q.id, q.question_text, q.answer_text, q.category, 0, 0⟩) := by
  refine ⟨?_, List.length_map _ _, ?_⟩
  · intro q hq
    simp only [reset_all_statistics, List.mem_map] at hq
    obtain ⟨r, _, hrq⟩ := hq
    subst hrq
    exact ⟨rfl, rfl, by simp [failRate]⟩
  · intro i q hq
    rw [reset_all_statistics, List.getElem?_map, hq]
    rfl

/-- Witness for C6: a concrete row keeps its text and loses its counters. -/
theorem reset_all_statistics_spec_witness :
    (reset_all_statistics [⟨2, "x", "y", some "c", 5, 3⟩])[0]?
      = some ⟨2, "x", "y", some "c", 0, 0⟩ :=
  (reset_all_statistics_spec [⟨2, "x", "y", some "c", 5, 3⟩]).2.2 0
    ⟨2, "x", "y", some "c", 5, 3⟩ rfl

/-! ## Selector edge cases (C8) -/

/-- C8: the selector returns `none` on an empty question set, and on a
singleton set it returns that single question for every uniform sample,
regardless of the question's counters. -/
theorem get_next_question_edge :
    (∀ u : ℚ, get_next_question [] u = none)
    ∧ (∀ (q : Question) (u : ℚ), 0 ≤ u → u < 1 →
        get_next_question [q] u = some q) := by
  constructor
  · intro u
    rfl
  · intro q u h0 h1
    have hw : 0 < weight q := weight_pos q
    have hx : u * weight q < weight q := by
      calc u * weight q < 1 * weight q := mul_lt_mul_of_pos_right h1 hw
      _ = weight q := one_mul _
    simp [get_next_question, selectIdx, hx]

/-- Witness for C8 on a singleton set at sample `1/2`. -/
theorem get_next_question_edge_witness :
    get_next_question [⟨1, "q", "a", none, 4, 2⟩] (1/2)
      = some ⟨1, "q", "a", none, 4, 2⟩ :=
  get_next_question_edge.2 ⟨1, "q", "a", none, 4, 2⟩ (1/2)
    (by norm_num) (by norm_num)

/-! ## The induced sampling distribution (C2) -/

/-- Characterisation of cumulative-distribution inversion: with
non-negative weights and a non-negative sample, index `i` is selected
exactly when the sample falls in the half-open interval between the
cumulative weights before and after position `i`. -/
lemma selectIdx_eq_iff :
    ∀ (ws : List ℚ) (x : ℚ) (i : Nat), (∀ w ∈ ws, 0 ≤ w) → 0 ≤ x →
      ((selectIdx ws x = i ∧ i < ws.length)
        ↔ ((ws.take i).sum ≤ x ∧ x < (ws.take (i + 1)).sum)) := by
  intro ws
  induction ws with
  | nil =>
      intro x i hw hx
      constructor
      · rintro ⟨-, hlen⟩
        exact absurd hlen (Nat.not_lt_zero i)
      · rintro ⟨-, hlt⟩
        simp only [List.take_nil, List.sum_nil] at hlt
        exact absurd hx (not_le.mpr hlt)
  | cons w rest ih =>
      intro x i hw hx
      have hw0 : 0 ≤ w := hw w (List.mem_cons_self w rest)
      have hwr : ∀ v ∈ rest, 0 ≤ v := fun v hv => hw v (List.mem_cons_of_mem w hv)
      cases i with
      | zero =>
          by_cases hlt : x < w
          · refine iff_of_true ⟨by simp [selectIdx, hlt], Nat.succ_pos _⟩ ?_
            exact ⟨by simpa using hx, by simpa using hlt⟩
          · refine iff_of_false ?_ ?_
            · rintro ⟨hsel, -⟩
              simp [selectIdx, hlt] at hsel
            · rintro ⟨-, h2⟩
              simp only [List.take_succ_cons, List.take_zero, List.sum_cons,
                List.sum_nil, add_zero] at h2
              exact hlt h2
      | succ j =>
          by_cases hlt : x < w
          · refine iff_of_false ?_ ?_
            · rintro ⟨hsel, -⟩
              simp [selectIdx, hlt] at hsel
            · rintro ⟨h1, -⟩
              have hts : 0 ≤ (rest.take j).sum :=
                List.sum_nonneg fun v hv => hwr v (List.take_subset _ _ hv)
              simp only [List.take_succ_cons, List.sum_cons] at h1
              linarith
          · have hwle : w ≤ x := not_lt.mp hlt
            have hx' : 0 ≤ x - w := sub_nonneg.mpr hwle
            have hiff := ih (x - w) j hwr hx'
            constructor
            · rintro ⟨hsel, hlen⟩
              have hsel' : selectIdx rest (x - w) = j := by
                simpa [selectIdx, hlt] using hsel
              have hlen' : j < rest.length := Nat.lt_of_succ_lt_succ hlen
              obtain ⟨h1, h2⟩ := hiff.mp ⟨hsel', hlen'⟩
              constructor
              · simp only [List.take_succ_cons, List.sum_cons]
                linarith
              · simp only [List.take_succ_cons, List.sum_cons]
                linarith
            · rintro ⟨h1, h2⟩
              simp only [List.take_succ_cons, List.sum_cons] at h1 h2
              obtain ⟨hsel', hlen'⟩ :=
                hiff.mpr ⟨by linarith, by linarith⟩
              refine ⟨?_, Nat.succ_lt_succ hlen'⟩
              simp [selectIdx, hlt, hsel']

/-- The set of samples on which index `i` is drawn is exactly the interval
from the `i`-th to the `(i+1)`-th cumulative weight. -/
lemma selectIdx_interval (ws : List ℚ) (hw : ∀ w ∈ ws, 0 ≤ w) (i : Nat)
    (hi : i < ws.length) :
    {x : ℚ | 0 ≤ x ∧ x < ws.sum ∧ selectIdx ws x = i}
      = Set.Ico ((ws.take i).sum) ((ws.take (i + 1)).sum) := by
  ext x
  simp only [Set.mem_setOf_eq, Set.mem_Ico]
  constructor
  · rintro ⟨hx0, -, hsel⟩
    exact (selectIdx_eq_iff ws x i hw hx0).mp ⟨hsel, hi⟩
  · rintro ⟨h1, h2⟩
    have hx0 : 0 ≤ x :=
      le_trans (List.sum_nonneg fun v hv => hw v (List.take_subset _ _ hv)) h1
    have hxs : x < ws.sum := by
      have hdrop : 0 ≤ (ws.drop (i + 1)).sum :=
        List.sum_nonneg fun v hv => hw v (List.drop_subset _ _ hv)
      have htd := List.sum_take_add_sum_drop ws (i + 1)
      linarith
    exact ⟨hx0, hxs, ((selectIdx_eq_iff ws x i hw hx0).mpr ⟨h1, h2⟩).1⟩

/-- Weights mapped from any question list are all non-negative. -/
lemma mapped_weights_nonneg (qs : List Question) :
    ∀ w ∈ qs.map weight, 0 ≤ w := by
  intro w hw
  obtain ⟨q, -, hq⟩ := List.mem_map.mp hw
  exact hq ▸ le_of_lt (weight_pos q)

/-- C2: on a non-empty question set the selector draws exactly one
question, and the uniform samples on which question `i` is drawn form an
interval whose length is exactly `weight i` — so question `i` is returned
with probability `weight i / sum of all weights`.  On the fixed
two-question set with weights `1` and `4`, the second question's interval
is `[1, 5)` inside `[0, 5)`: probability `4/5`. -/
theorem selectNext_distribution :
    (∀ (qs : List Question) (u : ℚ), qs ≠ [] → 0 ≤ u → u < 1 →
      ∃ q, get_next_question qs u = some q)
    ∧ (∀ (qs : List Question) (i : Nat) (hi : i < qs.length),
        {x : ℚ | 0 ≤ x ∧ x < ((qs.map weight).sum)
            ∧ selectIdx (qs.map weight) x = i}
          = Set.Ico (((qs.map weight).take i).sum)
              (((qs.map weight).take (i + 1)).sum)
        ∧ (((qs.map weight).take (i + 1)).sum
            - ((qs.map weight).take i).sum) = weight (qs.get ⟨i, hi⟩))
    ∧ (∀ (a b : Question), weight a = 1 → weight b = 4 →
        {x : ℚ | 0 ≤ x ∧ x < (([a, b].map weight).sum)
            ∧ selectIdx ([a, b].map weight) x = 1}
          = Set.Ico (1 : ℚ) 5
        ∧ weight b / (([a, b].map weight).sum) = 4/5) := by
  refine ⟨?_, ?_, ?_⟩
  · intro qs u hne h0 h1
    cases qs with
    | nil => exact absurd rfl hne
    | cons q qs' => exact ⟨_, rfl⟩
  · intro qs i hi
    have hi' : i < (qs.map weight).length := by
      rw [List.length_map]
      exact hi
    constructor
    · exact selectIdx_interval (qs.map weight) (mapped_weights_nonneg qs) i hi'
    · have hsucc := List.sum_take_succ (qs.map weight) i hi'
      have hget : (qs.map weight)[i] = weight (qs.get ⟨i, hi⟩) := by
        rw [List.getElem_map]
        rfl
      rw [hsucc, hget]
      ring
  · intro a b ha hb
    have hmap : [a, b].map weight = [1, 4] := by
      rw [List.map_cons, List.map_cons, List.map_nil, ha, hb]
    constructor
    · rw [hmap]
      have hset := selectIdx_interval [(1 : ℚ), 4] (by norm_num) 1 (by norm_num)
      norm_num [List.sum_cons, List.take_succ_cons, List.take_zero] at hset ⊢
      exact hset
    · rw [hb, hmap]
      norm_num

/-- Witness for C2: a draw from a concrete two-question set, and the
interval of samples picking its second question. -/
theorem selectNext_distribution_witness :
    (∃ q, get_next_question
        [⟨1, "a", "x", none, 5, 0⟩, ⟨2, "b", "y", none, 10, 10⟩] (1/2)
      = some q)
    ∧ {x : ℚ | 0 ≤ x
          ∧ x < (([⟨1, "a", "x", none, 5, 0⟩,
                    ⟨2, "b", "y", none, 10, 10⟩].map weight).sum)
          ∧ selectIdx ([⟨1, "a", "x", none, 5, 0⟩,
                    ⟨2, "b", "y", none, 10, 10⟩].map weight) x = 1}
        = Set.Ico (1 : ℚ) 5 :=
  ⟨selectNext_distribution.1
      [⟨1, "a", "x", none, 5, 0⟩, ⟨2, "b", "y", none, 10, 10⟩] (1/2)
      (List.cons_ne_nil _ _) (by norm_num) (by norm_num),
    (selectNext_distribution.2.2 ⟨1, "a", "x", none, 5, 0⟩
      ⟨2, "b", "y", none, 10, 10⟩
      (by norm_num [weight, failRate])
      (by norm_num [weight, failRate])).1⟩

/-! ## Most-missed statistics (C5) -/

/-- The descending key comparison is total. -/
lemma missedGe_total (a b : Question) :
    (missedGe a b || missedGe b a) = true := by
  simp only [missedGe, Bool.or_eq_true, decide_eq_true_eq]
  rcases lt_trichotomy (failRate a) (failRate b) with h | h | h
  · exact Or.inr (Or.inl h)
  · rcases Nat.le_total b.times_failed a.times_failed with ht | ht
    · exact Or.inl (Or.inr ⟨h, ht⟩)
    · exact Or.inr (Or.inr ⟨h.symm, ht⟩)
  · exact Or.inl (Or.inl h)

/-- The descending key comparison is transitive. -/
lemma missedGe_trans (a b c : Question) :
    missedGe a b = true → missedGe b c = true → missedGe a c = true := by
  simp only [missedGe, decide_eq_true_eq]
  rintro (hab | ⟨hab, tab⟩) (hbc | ⟨hbc, tbc⟩)
  · exact Or.inl (lt_trans hbc hab)
  · exact Or.inl (hbc ▸ hab)
  · exact Or.inl (hab ▸ hbc)
  · exact Or.inr ⟨hab.trans hbc, le_trans tbc tab⟩

/-- C5: `get_most_missed_questions` returns the question set rearranged
into an order that is descending in the lexicographic key
`(fail_rate, times_failed)` and truncated to at most `limit` elements;
in particular any earlier entry with the same fail rate as a later one
has at least as many `times_failed`, so among equal fail rates the more
often missed question sorts first. -/
theorem get_most_missed_spec (db : List Question) (limit : Nat) :
    (∃ l : List Question, l.Perm db
      ∧ l.Pairwise (fun a b => missedGe a b = true)
      ∧ get_most_missed_questions db limit = l.take limit)
    ∧ (get_most_missed_questions db limit).length ≤ limit
    ∧ (get_most_missed_questions db limit).Pairwise (fun a b =>
        failRate b < failRate a
        ∨ (failRate a = failRate b ∧ b.times_failed ≤ a.times_failed)) := by
  have hsorted : (db.mergeSort missedGe).Pairwise
      (fun a b => missedGe a b = true) :=
    List.sorted_mergeSort missedGe_trans missedGe_total db
  refine ⟨⟨db.mergeSort missedGe,
      List.mergeSort_perm db missedGe, hsorted, rfl⟩, ?_, ?_⟩
  · exact (List.length_take _ _).trans_le (min_le_left _ _)
  · have hres : (get_most_missed_questions db limit).Pairwise
        (fun a b => missedGe a b = true) :=
      List.Pairwise.sublist (List.take_sublist _ _) hsorted
    refine hres.imp ?_
    intro a b h
    simpa only [missedGe, decide_eq_true_eq] using h

/-! ## Ingestion (C7, C9, C10) -/

/-- An upsert step whose tuple text is already present updates in place:
row count, question texts and the id counter are all unchanged. -/
lemma upsertStep_of_mem (st : DbState) (t : IngestTuple)
    (h : t.question_text ∈ st.1.map Question.question_text) :
    (upsertStep st t).1.length = st.1.length
    ∧ (upsertStep st t).1.map Question.question_text
        = st.1.map Question.question_text
    ∧ (upsertStep st t).2 = st.2 := by
  obtain ⟨q, hq, hqt⟩ := List.mem_map.mp h
  rcases hfound : st.1.find? (fun r => r.question_text == t.question_text)
      with _ | ex
  · exfalso
    have hnone := List.find?_eq_none.mp hfound q hq
    simp [hqt] at hnone
  · simp only [upsertStep, hfound]
    refine ⟨List.length_map _ _, ?_, trivial⟩
    rw [List.map_map]
    refine List.map_congr_left fun a _ => ?_
    by_cases hid : a.id = ex.id <;> simp [Function.comp, hid]

/-- Folding upsert steps whose texts are all already present never changes
the row count. -/
lemma foldl_upsert_length :
    ∀ (tuples : List IngestTuple) (st : DbState),
      (∀ t ∈ tuples, t.question_text ∈ st.1.map Question.question_text) →
      (tuples.foldl upsertStep st).1.length = st.1.length := by
  intro tuples
  induction tuples with
  | nil =>
      intro st _
      rfl
  | cons t ts ih =>
      intro st h
      obtain ⟨hlen, htexts, -⟩ :=
        upsertStep_of_mem st t (h t (List.mem_cons_self _ _))
      rw [List.foldl_cons, ih (upsertStep st t) ?_, hlen]
      intro t2 ht2
      rw [htexts]
      exact h t2 (List.mem_cons_of_mem _ ht2)

/-- The question texts produced by the bulk-insert branch. -/
lemma bulkInsert_texts :
    ∀ (tuples : List IngestTuple) (st : DbState),
      (bulkInsert st tuples).1.map Question.question_text
        = st.1.map Question.question_text
          ++ tuples.map IngestTuple.question_text := by
  intro tuples
  induction tuples with
  | nil =>
      intro st
      simp [bulkInsert]
  | cons t ts ih =>
      intro st
      show (bulkInsert (st.1 ++ [newRow st.2 t], st.2 + 1) ts).1.map
          Question.question_text = _
      rw [ih]
      simp [newRow]

/-- Positional description of the bulk-insert branch. -/
lemma bulkInsert_fst :
    ∀ (tuples : List IngestTuple) (rows : List Question) (n : Nat),
      (bulkInsert (rows, n) tuples).1
        = rows ++ tuples.mapIdx (fun i t => newRow (n + i) t) := by
  intro tuples
  induction tuples with
  | nil =>
      intro rows n
      simp [bulkInsert]
  | cons t ts ih =>
      intro rows n
      show (bulkInsert (rows ++ [newRow n t], n + 1) ts).1 = _
      rw [ih, List.mapIdx_cons, List.append_assoc, List.singleton_append]
      have hfun : (fun i t2 => newRow (n + 1 + i) t2)
          = (fun i t2 => newRow (n + (i + 1)) t2) := by
        funext i t2
        have harith : n + 1 + i = n + (i + 1) := by omega
        rw [harith]
      rw [hfun, Nat.add_zero]

/-- The first ingestion into an empty table takes the bulk branch. -/
lemma load_into_empty (tuples : List IngestTuple) (n : Nat)
    (hne : tuples ≠ []) :
    load_excel_to_db ([], n) (.readable tuples)
      = (.ok tuples.length, bulkInsert ([], n) tuples) := by
  have hne2 : tuples.isEmpty = false := by
    simpa [List.isEmpty_iff] using hne
  simp [load_excel_to_db, hne2]

/-- Ingestion into a non-empty table takes the update-by-text branch. -/
lemma load_into_nonempty (st : DbState) (tuples : List IngestTuple)
    (hne : tuples ≠ []) (hrows : st.1 ≠ []) :
    load_excel_to_db st (.readable tuples)
      = (.ok tuples.length, tuples.foldl upsertStep st) := by
  have hne2 : tuples.isEmpty = false := by
    simpa [List.isEmpty_iff] using hne
  have hlen : st.1.length ≠ 0 := by
    simpa [List.length_eq_zero] using hrows
  simp [load_excel_to_db, hne2, hlen]

/-- C7: ingesting the same normalized tuple list twice leaves the question
count unchanged; in the update branch, a tuple whose text matches an
existing row overwrites that row's answer text and category in place,
leaving its counters and every other row untouched and inserting nothing,
while a tuple with no matching text appends one fresh zero-counter row. -/
theorem load_upsert_spec :
    (∀ (tuples : List IngestTuple) (n : Nat), tuples ≠ [] →
      (load_excel_to_db
          (load_excel_to_db ([], n) (.readable tuples)).2
          (.readable tuples)).2.1.length
        = (load_excel_to_db ([], n) (.readable tuples)).2.1.length)
    ∧ (∀ (st : DbState) (t : IngestTuple) (ex : Question),
        st.1.find? (fun q => q.question_text == t.question_text) = some ex →
        (upsertStep st t).1.length = st.1.length
        ∧ (upsertStep st t).2 = st.2
        ∧ (∀ (i : Nat) (q : Question), st.1[i]? = some q →
            (q.id = ex.id →
              (upsertStep st t).1[i]?
                = some { q with answer_text := t.answer_text,
                                category := t.category })
            ∧ (q.id ≠ ex.id → (upsertStep st t).1[i]? = some q)))
    ∧ (∀ (st : DbState) (t : IngestTuple),
        st.1.find? (fun q => q.question_text == t.question_text) = none →
        (upsertStep st t).1 = st.1 ++ [newRow st.2 t]
        ∧ (upsertStep st t).2 = st.2 + 1
        ∧ (newRow st.2 t).times_seen = 0
        ∧ (newRow st.2 t).times_failed = 0) := by
  refine ⟨?_, ?_, ?_⟩
  · intro tuples n hne
    rw [load_into_empty tuples n hne]
    have htexts1 : (bulkInsert ([], n) tuples).1.map Question.question_text
        = tuples.map IngestTuple.question_text := by
      rw [bulkInsert_texts]
      simp
    have hrows1 : (bulkInsert ([], n) tuples).1 ≠ [] := by
      intro hcon
      rw [hcon] at htexts1
      exact hne (by simpa using htexts1.symm)
    rw [load_into_nonempty (bulkInsert ([], n) tuples) tuples hne hrows1]
    exact foldl_upsert_length tuples (bulkInsert ([], n) tuples)
      (fun t ht => by
        rw [htexts1]
        exact List.mem_map_of_mem IngestTuple.question_text ht)
  · intro st t ex hfound
    simp only [upsertStep, hfound]
    refine ⟨List.length_map _ _, trivial, ?_⟩
    intro i q hq
    constructor
    · intro hid
      rw [List.getElem?_map, hq]
      simp [hid]
    · intro hid
      rw [List.getElem?_map, hq]
      simp [hid]
  · intro st t hfound
    simp only [upsertStep, hfound]
    exact ⟨trivial, trivial, rfl, rfl⟩

/-- Witness for C7: ingesting a one-tuple spreadsheet twice keeps one row. -/
theorem load_upsert_spec_witness :
    (load_excel_to_db
        (load_excel_to_db ([], 0) (.readable [⟨"q", "a", none⟩])).2
        (.readable [⟨"q", "a", none⟩])).2.1.length
      = (load_excel_to_db ([], 0)
          (.readable [⟨"q", "a", none⟩])).2.1.length :=
  load_upsert_spec.1 [⟨"q", "a", none⟩] 0 (List.cons_ne_nil _ _)

/-- C9: on an unreadable source file, and likewise when zero valid rows
were extracted, ingestion reports an error and the table rows are exactly
as before the call. -/
theorem load_error_spec (st : DbState) :
    (load_excel_to_db st .unreadable).2 = st
    ∧ (∃ msg, (load_excel_to_db st .unreadable).1 = .error msg)
    ∧ (load_excel_to_db st (.readable [])).2 = st
    ∧ (∃ msg, (load_excel_to_db st (.readable [])).1 = .error msg) :=
  ⟨rfl, ⟨_, rfl⟩, rfl, ⟨_, rfl⟩⟩

/-- C10: into an empty table, ingestion bulk-inserts every normalized
tuple in order with fresh ids and zero counters and no matching on text —
so a source listing the same text twice yields two distinct rows — and
the update-by-matching-text branch runs only when the table already has a
row. -/
theorem load_bulk_path_spec :
    (∀ (n : Nat) (tuples : List IngestTuple), tuples ≠ [] →
      (load_excel_to_db ([], n) (.readable tuples)).2
          = bulkInsert ([], n) tuples
      ∧ (load_excel_to_db ([], n) (.readable tuples)).2.1.length
          = tuples.length
      ∧ (∀ (i : Nat) (t : IngestTuple), tuples[i]? = some t →
          (load_excel_to_db ([], n) (.readable tuples)).2.1[i]?
            = some (newRow (n + i) t)))
    ∧ (∀ (t : IngestTuple) (n : Nat),
        (load_excel_to_db ([], n) (.readable [t, t])).2.1
          = [newRow n t, newRow (n + 1) t])
    ∧ (∀ (st : DbState) (tuples : List IngestTuple),
        tuples ≠ [] → st.1 ≠ [] →
        (load_excel_to_db st (.readable tuples)).2
          = tuples.foldl upsertStep st) := by
  refine ⟨?_, ?_, ?_⟩
  · intro n tuples hne
    rw [load_into_empty tuples n hne]
    refine ⟨rfl, ?_, ?_⟩
    · rw [bulkInsert_fst]
      simp
    · intro i t ht
      rw [bulkInsert_fst, List.nil_append, List.getElem?_mapIdx, ht]
      rfl
  · intro t n
    rfl
  · intro st tuples hne hrows
    rw [load_into_nonempty st tuples hne hrows]

/-- Witness for C10: one tuple bulk-inserted into the empty table. -/
theorem load_bulk_path_spec_witness :
    (load_excel_to_db ([], 0)
        (.readable [⟨"q", "a", none⟩])).2.1.length = 1 :=
  (load_bulk_path_spec.1 0 [⟨"q", "a", none⟩] (List.cons_ne_nil _ _)).2.1

/-- Witness for C5 at a concrete one-row table and limit 10. -/
theorem get_most_missed_spec_witness :
    (get_most_missed_questions [⟨1, "q", "a", none, 2, 1⟩] 10).length ≤ 10 :=
  (get_most_missed_spec [⟨1, "q", "a", none, 2, 1⟩] 10).2.1

/-- Witness for C9 at a concrete one-row table. -/
theorem load_error_spec_witness :
    (load_excel_to_db ([⟨1, "q", "a", none, 0, 0⟩], 2) .unreadable).2
      = ([⟨1, "q", "a", none, 0, 0⟩], 2) :=
  (load_error_spec ([⟨1, "q", "a", none, 0, 0⟩], 2)).1
